import Mathlib

/-!
Verification development for the FEMU firmware rehosting preparation engine.

Paths and text are modelled as lists of characters (`Str`); the Python
exceptions raised by the code are the `PyErr` type, and fallible functions
return `Except PyErr`.  Operating-system effects (stat calls, readlink,
directory walks, the external file-type oracle) enter the model as explicit
oracle records; the repository's own logic is translated function by
function from `src/guestUtils.py`, `src/util.py`, `src/prepareImage.py`
and `src/emulator.py`.
-/

namespace FEMU

/-- Python strings are modelled as lists of characters. -/
abbrev Str := List Char

/-- The Python exception classes raised by the modelled code. -/
inductive PyErr where
  | valueError
  | indexError
  | fileNotFoundError
  | fileExistsError
deriving DecidableEq, Repr

/-- Python `s.startswith(pre)`. -/
def startsWith (pre s : Str) : Bool := pre.isPrefixOf s

/-- Python `s.endswith("/")`. -/
def endsWithSlash (s : Str) : Bool :=
  match s.getLast? with
  | some c => decide (c = '/')
  | none => false

/-- Python substring test `needle in hay`. -/
def strContains (hay needle : Str) : Bool :=
  match hay with
  | [] => needle.isEmpty
  | _ :: rest => needle.isPrefixOf hay || strContains rest needle

/-- Python `s.replace(old, new, 1)`: replace the leftmost occurrence of
`old` in `s` by `new` (Python replaces an empty `old` at position 0). -/
def replaceFirst (s old new : Str) : Str :=
  match s with
  | [] => if old.isEmpty then new else []
  | c :: rest =>
    if old.isPrefixOf (c :: rest) then new ++ (c :: rest).drop old.length
    else c :: replaceFirst rest old new

/-- `imagePath[:-1]` applied when the path ends with a slash
(`guestUtils.hostToGuestPath` lines 25-26). -/
def stripTrailingSlash (s : Str) : Str := if endsWithSlash s then s.dropLast else s

/-- `imagePath += "/"` applied when the path does not end with a slash
(`guestUtils.guestToHostPath` lines 50-51). -/
def addTrailingSlash (s : Str) : Str := if endsWithSlash s then s else s ++ ['/']

/-- `guestUtils.hostToGuestPath`: raises `ValueError` unless both arguments
start with `/`; otherwise strips a trailing slash from `imagePath` and
replaces its first occurrence in `path` by `/`. -/
def hostToGuestPath (imagePath path : Str) : Except PyErr Str :=
  if !(startsWith ['/'] imagePath) || !(startsWith ['/'] path) then .error .valueError
  else .ok (replaceFirst path (stripTrailingSlash imagePath) ['/'])

/-- `guestUtils.guestToHostPath`: raises `ValueError` unless both arguments
start with `/`; otherwise appends a trailing slash to `imagePath` and
replaces the first `/` of `path` by it. -/
def guestToHostPath (imagePath path : Str) : Except PyErr Str :=
  if !(startsWith ['/'] imagePath) || !(startsWith ['/'] path) then .error .valueError
  else .ok (replaceFirst path ['/'] (addTrailingSlash imagePath))

/-! ### Path-algebra lemmas (claim C1) -/

theorem startsWith_slash_iff {s : Str} :
    startsWith ['/'] s = true ↔ ∃ t, s = '/' :: t := by
  simp only [startsWith, List.isPrefixOf_iff_prefix]
  constructor
  · rintro ⟨t, ht⟩
    exact ⟨t, ht.symm⟩
  · rintro ⟨t, ht⟩
    exact ⟨t, ht.symm⟩

theorem replaceFirst_append (a b new : Str) : replaceFirst (a ++ b) a new = new ++ b := by
  match a with
  | [] =>
    match b with
    | [] => simp [replaceFirst]
    | c :: r => simp [replaceFirst, List.isPrefixOf]
  | c :: a2 =>
    have hpre : (c :: a2).isPrefixOf ((c :: a2) ++ b) = true := by
      simp [List.isPrefixOf_iff_prefix]
    rw [List.cons_append]
    rw [List.cons_append] at hpre
    simp only [replaceFirst, hpre, if_true]
    rw [← List.cons_append, List.drop_left]

theorem addTrailingSlash_eq (s : Str) :
    addTrailingSlash s = stripTrailingSlash s ++ ['/'] := by
  unfold addTrailingSlash stripTrailingSlash
  by_cases h : endsWithSlash s = true
  · simp only [h, if_true]
    unfold endsWithSlash at h
    cases hgl : s.getLast? with
    | none => rw [hgl] at h; exact absurd h (by simp)
    | some c =>
      rw [hgl] at h
      have hc : c = '/' := by simpa using h
      subst hc
      exact (List.dropLast_append_getLast? _ hgl).symm
  · rw [Bool.not_eq_true] at h
    simp [h]

theorem stripTrailingSlash_startsWith {R : Str} (hR : startsWith ['/'] R = true) :
    stripTrailingSlash R = [] ∨ startsWith ['/'] (stripTrailingSlash R) = true := by
  obtain ⟨t, ht⟩ := startsWith_slash_iff.mp hR
  subst ht
  unfold stripTrailingSlash
  by_cases h : endsWithSlash ('/' :: t) = true
  · simp only [h, if_true]
    cases t with
    | nil => exact Or.inl rfl
    | cons x xs =>
      right
      rw [List.dropLast_cons₂]
      exact startsWith_slash_iff.mpr ⟨_, rfl⟩
  · rw [Bool.not_eq_true] at h
    simp only [h, Bool.false_eq_true, if_false]
    exact Or.inr hR

theorem startsWith_slash_append {R P : Str} (hR : startsWith ['/'] R = true)
    (hP : startsWith ['/'] P = true) :
    startsWith ['/'] (stripTrailingSlash R ++ P) = true := by
  rcases stripTrailingSlash_startsWith hR with h | h
  · rw [h, List.nil_append]; exact hP
  · obtain ⟨t, ht⟩ := startsWith_slash_iff.mp h
    rw [ht, List.cons_append]
    exact startsWith_slash_iff.mpr ⟨_, rfl⟩

theorem guestToHostPath_eq {R P : Str} (hR : startsWith ['/'] R = true)
    (hP : startsWith ['/'] P = true) :
    guestToHostPath R P = .ok (stripTrailingSlash R ++ P) := by
  obtain ⟨t, ht⟩ := startsWith_slash_iff.mp hP
  unfold guestToHostPath
  rw [hR, hP]
  simp only [Bool.not_true, Bool.or_self, Bool.false_eq_true, if_false]
  subst ht
  have h2 : ('/' : Char) :: t = ['/'] ++ t := rfl
  rw [h2, replaceFirst_append, addTrailingSlash_eq, List.append_assoc]

theorem hostToGuestPath_eq {R Q : Str} (hR : startsWith ['/'] R = true)
    (hQ : startsWith ['/'] Q = true) (hpre : stripTrailingSlash R <+: Q) :
    hostToGuestPath R Q = .ok ('/' :: Q.drop (stripTrailingSlash R).length) := by
  obtain ⟨x, hx⟩ := hpre
  unfold hostToGuestPath
  rw [hR, hQ]
  simp only [Bool.not_true, Bool.or_self, Bool.false_eq_true, if_false]
  rw [← hx, replaceFirst_append, List.drop_left]
  rfl

/-- **C1, counterexample.** At the concrete root `R = "/r"` and guest path
`P = "/a/b"`, translating to the host and back yields `"//a/b"`, not `P`:
the functions are not mutually inverse as the claim states. -/
theorem c1_counterexample :
    guestToHostPath "/r".toList "/a/b".toList = .ok "/r/a/b".toList ∧
    hostToGuestPath "/r".toList "/r/a/b".toList = .ok "//a/b".toList ∧
    "//a/b".toList ≠ "/a/b".toList :=
  ⟨rfl, rfl, by decide⟩

/-- **C1, amended.** For every root `R` and path `P` starting with `/`, the
round trip returns the path with one extra leading slash:
`hostToGuest(R, guestToHost(R, P)) = "/" + P`; and for every host path `Q`
starting with `/` that has `R` (without its trailing slash) as a prefix,
`guestToHost(R, hostToGuest(R, Q))` re-inserts a slash after the root:
it equals `stripSlash(R) + "/" + Q[len(stripSlash(R)):]`. -/
theorem c1_theorem {R P Q : Str} (hR : startsWith ['/'] R = true)
    (hP : startsWith ['/'] P = true) (hQ : startsWith ['/'] Q = true)
    (hpre : stripTrailingSlash R <+: Q) :
    (∃ q, guestToHostPath R P = .ok q ∧ hostToGuestPath R q = .ok ('/' :: P)) ∧
    (∃ q2, hostToGuestPath R Q = .ok q2 ∧
      guestToHostPath R q2 =
        .ok (stripTrailingSlash R ++ '/' :: Q.drop (stripTrailingSlash R).length)) := by
  constructor
  · refine ⟨stripTrailingSlash R ++ P, guestToHostPath_eq hR hP, ?_⟩
    have hq : startsWith ['/'] (stripTrailingSlash R ++ P) = true :=
      startsWith_slash_append hR hP
    have hpre2 : stripTrailingSlash R <+: stripTrailingSlash R ++ P :=
      List.prefix_append _ _
    rw [hostToGuestPath_eq hR hq hpre2, List.drop_left]
  · refine ⟨'/' :: Q.drop (stripTrailingSlash R).length,
      hostToGuestPath_eq hR hQ hpre, ?_⟩
    have hq : startsWith ['/'] ('/' :: Q.drop (stripTrailingSlash R).length) = true :=
      startsWith_slash_iff.mpr ⟨_, rfl⟩
    rw [guestToHostPath_eq hR hq]

/-- Witness for `c1_theorem` at `R = "/r"`, `P = "/a/b"`, `Q = "/r/a"`. -/
theorem c1_theorem_witness :
    (∃ q, guestToHostPath "/r".toList "/a/b".toList = .ok q ∧
      hostToGuestPath "/r".toList q = .ok ('/' :: "/a/b".toList)) ∧
    (∃ q2, hostToGuestPath "/r".toList "/r/a".toList = .ok q2 ∧
      guestToHostPath "/r".toList q2 =
        .ok (stripTrailingSlash "/r".toList ++
          '/' :: "/r/a".toList.drop (stripTrailingSlash "/r".toList).length)) :=
  c1_theorem (by decide) (by decide) (by decide) (by decide)

/-! ### Guest predicates and symlink chains (claims C2, C7) -/

/-- Oracle view of the host filesystem as consulted by the guest predicates
of `guestUtils.py`: `os.path.islink`, `os.readlink`, `os.path.exists`,
`os.path.isfile`, `os.path.isdir`, `os.path.getsize`. -/
structure GuestFS where
  islink : Str → Bool
  readlink : Str → Str
  pathExists : Str → Bool
  isfile : Str → Bool
  isdir : Str → Bool
  getsize : Str → Nat

/-- The while loop shared by the four guest predicates
(`while os.path.islink(path): path = guestToHostPath(imagePath, os.readlink(path))`),
instrumented with fuel: `none` means the loop is still running after `fuel`
iterations (the source loop has no iteration bound of its own). -/
def resolveLinkChain (fs : GuestFS) (imagePath : Str) : Nat → Str → Option (Except PyErr Str)
  | 0, path => if fs.islink path then none else some (.ok path)
  | n+1, path =>
    if fs.islink path then
      match guestToHostPath imagePath (fs.readlink path) with
      | .ok q => resolveLinkChain fs imagePath n q
      | .error e => some (.error e)
    else some (.ok path)

/-- The common prelude of the guest predicates:
`if not path.startswith(imagePath): path = guestToHostPath(imagePath, path)`. -/
def normalizeToHost (imagePath path : Str) : Except PyErr Str :=
  if startsWith imagePath path then .ok path else guestToHostPath imagePath path

/-- `guestUtils.existsInGuest`, with fuel for the unbounded symlink loop. -/
def existsInGuest (fs : GuestFS) (imagePath path : Str) (fuel : Nat) :
    Option (Except PyErr Bool) :=
  match normalizeToHost imagePath path with
  | .error e => some (.error e)
  | .ok p =>
    match resolveLinkChain fs imagePath fuel p with
    | none => none
    | some (.error e) => some (.error e)
    | some (.ok q) => some (.ok (fs.pathExists q))

/-- `guestUtils.isFileInGuest`, with fuel for the unbounded symlink loop. -/
def isFileInGuest (fs : GuestFS) (imagePath path : Str) (fuel : Nat) :
    Option (Except PyErr Bool) :=
  match normalizeToHost imagePath path with
  | .error e => some (.error e)
  | .ok p =>
    match resolveLinkChain fs imagePath fuel p with
    | none => none
    | some (.error e) => some (.error e)
    | some (.ok q) => some (.ok (fs.isfile q))

/-- `guestUtils.isDirInGuest`, with fuel for the unbounded symlink loop. -/
def isDirInGuest (fs : GuestFS) (imagePath path : Str) (fuel : Nat) :
    Option (Except PyErr Bool) :=
  match normalizeToHost imagePath path with
  | .error e => some (.error e)
  | .ok p =>
    match resolveLinkChain fs imagePath fuel p with
    | none => none
    | some (.error e) => some (.error e)
    | some (.ok q) => some (.ok (fs.isdir q))

/-- `guestUtils.isFileInGuestNotEmpty`, with fuel for the unbounded symlink
loop (`os.path.isfile(path) and os.path.getsize(path) > 0`). -/
def isFileInGuestNotEmpty (fs : GuestFS) (imagePath path : Str) (fuel : Nat) :
    Option (Except PyErr Bool) :=
  match normalizeToHost imagePath path with
  | .error e => some (.error e)
  | .ok p =>
    match resolveLinkChain fs imagePath fuel p with
    | none => none
    | some (.error e) => some (.error e)
    | some (.ok q) => some (.ok (fs.isfile q && decide (0 < fs.getsize q)))

/-- A set of host paths forming a symlink cycle: every member is a symlink
whose target translates back into the set. -/
def CyclicChain (fs : GuestFS) (imagePath : Str) (S : Str → Prop) : Prop :=
  ∀ p, S p → fs.islink p = true ∧
    ∃ q, guestToHostPath imagePath (fs.readlink p) = .ok q ∧ S q

theorem resolveLinkChain_none_of_cyclic {fs : GuestFS} {imagePath : Str}
    {S : Str → Prop} (hS : CyclicChain fs imagePath S) :
    ∀ (n : Nat) (p : Str), S p → resolveLinkChain fs imagePath n p = none := by
  intro n
  induction n with
  | zero =>
    intro p hp
    obtain ⟨hl, _⟩ := hS p hp
    simp [resolveLinkChain, hl]
  | succ n ih =>
    intro p hp
    obtain ⟨hl, q, hq, hSq⟩ := hS p hp
    simp only [resolveLinkChain, hl, if_true, hq]
    exact ih q hSq

/-- The four guest predicates never return, for any amount of fuel. -/
def GuestPredicatesDiverge (fs : GuestFS) (imagePath path : Str) : Prop :=
  ∀ n, existsInGuest fs imagePath path n = none ∧
    isFileInGuest fs imagePath path n = none ∧
    isDirInGuest fs imagePath path n = none ∧
    isFileInGuestNotEmpty fs imagePath path n = none

theorem guestPredicatesDiverge_of_cyclic {fs : GuestFS} {imagePath path p0 : Str}
    {S : Str → Prop} (hS : CyclicChain fs imagePath S)
    (h0 : normalizeToHost imagePath path = .ok p0) (hp : S p0) :
    GuestPredicatesDiverge fs imagePath path := by
  intro n
  have hchain := resolveLinkChain_none_of_cyclic hS n p0 hp
  refine ⟨?_, ?_, ?_, ?_⟩ <;>
    simp only [existsInGuest, isFileInGuest, isDirInGuest, isFileInGuestNotEmpty,
      h0, hchain]

/-- A host filesystem whose only entry is the self-referential symlink
`/r/a -> /a` (the guest target `/a` translates back to the host path
`/r/a`). -/
def cycFS : GuestFS where
  islink := fun p => decide (p = "/r/a".toList)
  readlink := fun _ => "/a".toList
  pathExists := fun _ => true
  isfile := fun _ => true
  isdir := fun _ => true
  getsize := fun _ => 1

/-- **C2, counterexample.** On the cyclic symlink `/r/a -> /a` under root
`/r`, none of the four guest predicates ever returns: the source loop has
no iteration bound, so no fuel (40 or any other) makes them return false. -/
theorem c2_counterexample : GuestPredicatesDiverge cycFS "/r".toList "/a".toList := by
  have hS : CyclicChain cycFS "/r".toList (fun p => p = "/r/a".toList) := by
    intro p hp
    subst hp
    exact ⟨rfl, "/r/a".toList, rfl, rfl⟩
  exact guestPredicatesDiverge_of_cyclic hS rfl rfl

/-- **C2, amended.** The chain-following loop in the guest predicates has
no iteration bound: for every root and every path whose normalised host
path lies on a cyclic symlink chain, the predicates do not terminate —
after any number of readlink iterations the loop is still running (rather
than returning false within a bound of at least 40). -/
theorem c2_theorem {fs : GuestFS} {imagePath path p0 : Str} {S : Str → Prop}
    (hS : CyclicChain fs imagePath S)
    (h0 : normalizeToHost imagePath path = .ok p0) (hp : S p0) :
    GuestPredicatesDiverge fs imagePath path :=
  guestPredicatesDiverge_of_cyclic hS h0 hp

/-- Witness for `c2_theorem`: the host path `/r/a` of the cyclic symlink
itself. -/
theorem c2_theorem_witness : GuestPredicatesDiverge cycFS "/r".toList "/r/a".toList :=
  c2_theorem (S := fun p => p = "/r/a".toList)
    (fun p hp => by subst hp; exact ⟨rfl, "/r/a".toList, rfl, rfl⟩) rfl rfl

/-! ### Relative queried paths (claim C7) -/

theorem startsWith_false_of_head {R₁ path : Str}
    (hpath : startsWith ['/'] path = false) :
    startsWith ('/' :: R₁) path = false := by
  by_contra h
  rw [Bool.not_eq_false] at h
  rw [startsWith, List.isPrefixOf_iff_prefix] at h
  have h2 : ['/'] <+: path := List.IsPrefix.trans ⟨R₁, rfl⟩ h
  rw [startsWith] at hpath
  rw [← List.isPrefixOf_iff_prefix] at h2
  rw [hpath] at h2
  exact Bool.false_ne_true h2

theorem normalizeToHost_err {R path : Str} (hR : startsWith ['/'] R = true)
    (hpath : startsWith ['/'] path = false) :
    normalizeToHost R path = .error .valueError := by
  obtain ⟨R₁, hR₁⟩ := startsWith_slash_iff.mp hR
  subst hR₁
  rw [normalizeToHost, startsWith_false_of_head hpath]
  simp only [Bool.false_eq_true, if_false]
  rw [guestToHostPath, hpath]
  simp

/-- **C7, counterexample.** At root `/r` and the relative queried path `a`,
`existsInGuest` (and each other guest predicate) propagates the
`ValueError` raised by `guestToHostPath` instead of returning
"does not exist". -/
theorem c7_counterexample :
    existsInGuest cycFS "/r".toList "a".toList 0 = some (.error .valueError) ∧
    isFileInGuest cycFS "/r".toList "a".toList 0 = some (.error .valueError) ∧
    isDirInGuest cycFS "/r".toList "a".toList 0 = some (.error .valueError) ∧
    isFileInGuestNotEmpty cycFS "/r".toList "a".toList 0 = some (.error .valueError) ∧
    (some (Except.error PyErr.valueError) : Option (Except PyErr Bool)) ≠
      some (.ok false) :=
  ⟨rfl, rfl, rfl, rfl, by simp⟩

/-- **C7, amended.** For every root starting with `/` and every queried
path that does not start with `/`, the four guest predicates do not return
false: they propagate the `ValueError` raised by the `guestToHostPath`
translation they perform internally; the explicit translation calls
`guestToHostPath` and `hostToGuestPath` raise the same error. -/
theorem c7_theorem {fs : GuestFS} {R path : Str} (fuel : Nat)
    (hR : startsWith ['/'] R = true) (hpath : startsWith ['/'] path = false) :
    existsInGuest fs R path fuel = some (.error .valueError) ∧
    isFileInGuest fs R path fuel = some (.error .valueError) ∧
    isDirInGuest fs R path fuel = some (.error .valueError) ∧
    isFileInGuestNotEmpty fs R path fuel = some (.error .valueError) ∧
    guestToHostPath R path = .error .valueError ∧
    hostToGuestPath R path = .error .valueError := by
  have hnorm := normalizeToHost_err hR hpath
  refine ⟨?_, ?_, ?_, ?_, ?_, ?_⟩
  · simp [existsInGuest, hnorm]
  · simp [isFileInGuest, hnorm]
  · simp [isDirInGuest, hnorm]
  · simp [isFileInGuestNotEmpty, hnorm]
  · rw [guestToHostPath, hpath]; simp
  · rw [hostToGuestPath, hpath]; simp

/-- Witness for `c7_theorem` at root `/r` and queried path `etc/passwd`. -/
theorem c7_theorem_witness :
    existsInGuest cycFS "/r".toList "etc/passwd".toList 2 = some (.error .valueError) ∧
    isFileInGuest cycFS "/r".toList "etc/passwd".toList 2 = some (.error .valueError) ∧
    isDirInGuest cycFS "/r".toList "etc/passwd".toList 2 = some (.error .valueError) ∧
    isFileInGuestNotEmpty cycFS "/r".toList "etc/passwd".toList 2 =
      some (.error .valueError) ∧
    guestToHostPath "/r".toList "etc/passwd".toList = .error .valueError ∧
    hostToGuestPath "/r".toList "etc/passwd".toList = .error .valueError :=
  c7_theorem 2 (by decide) (by decide)

/-! ### Architecture and endianness inference (claim C4) -/

/-- `common.Architecture`, members in declaration order. -/
inductive Architecture where
  | MIPS
  | MIPS64
  | ARM
  | ARM64
  | INTEL_80386
  | X86_64
  | POWERPC
  | UNKNOWN
deriving DecidableEq, Repr

/-- `Architecture.identifier()`. -/
def Architecture.identifier : Architecture → Str
  | .MIPS => "MIPS".toList
  | .MIPS64 => "MIPS64".toList
  | .ARM => "ARM".toList
  | .ARM64 => "ARM64".toList
  | .INTEL_80386 => "INTEL_80386".toList
  | .X86_64 => "X86_64".toList
  | .POWERPC => "POWERPC".toList
  | .UNKNOWN => "UNKNOWN".toList

/-- Iteration order of `for arch in Architecture`. -/
def architectureMembers : List Architecture :=
  [.MIPS, .MIPS64, .ARM, .ARM64, .INTEL_80386, .X86_64, .POWERPC, .UNKNOWN]

/-- `common.Endianess`, members in declaration order. -/
inductive Endianess where
  | LITTLE
  | BIG
  | UNKNOWN
deriving DecidableEq, Repr

/-- `Endianess.identifier()`. -/
def Endianess.identifier : Endianess → Str
  | .LITTLE => "LSB".toList
  | .BIG => "MSB".toList
  | .UNKNOWN => "UNKNOWN".toList

/-- Iteration order of `for endian in Endianess`. -/
def endianessMembers : List Endianess := [.LITTLE, .BIG, .UNKNOWN]

/-- The inner loop `for arch in Architecture: if arch.identifier() in
filetype: arch = arch; break` of `util.checkArch` (lines 107-110).  The
result is the final value of the re-bound loop variable: the first member
whose identifier occurs in `filetype`, otherwise the last member iterated;
`cur` (the variable's previous value) survives only if the member list is
empty. -/
def archForLoop (members : List Architecture) (filetype : Str) (cur : Architecture) :
    Architecture :=
  match members with
  | [] => cur
  | m :: rest =>
    if strContains filetype m.identifier then m else archForLoop rest filetype m

/-- The inner loop `for endian in Endianess: if endian.identifier() in
filetype: endianess = endian; break` (lines 112-115): the separate variable
`endianess` is updated only on a match. -/
def endianForLoop (members : List Endianess) (filetype : Str) (cur : Endianess) :
    Endianess :=
  match members with
  | [] => cur
  | m :: rest =>
    if strContains filetype m.identifier then m else endianForLoop rest filetype cur

/-- The executable scan of `util.checkArch` (lines 99-118), abstracted over
the outputs of the external file-type oracle, one per extracted
executable in order. -/
def checkArchLoop : List Str → Architecture → Endianess → Architecture × Endianess
  | [], a, e => (a, e)
  | ft :: rest, a, e =>
    let a2 := archForLoop architectureMembers ft a
    let e2 := endianForLoop endianessMembers ft e
    if a2 ≠ Architecture.UNKNOWN ∧ e2 ≠ Endianess.UNKNOWN then (a2, e2)
    else checkArchLoop rest a2 e2

/-- `util.checkArch` on the oracle outputs of the extracted executables. -/
def checkArch (filetypes : List Str) : Architecture × Endianess :=
  checkArchLoop filetypes .UNKNOWN .UNKNOWN

/-- The claim's specification of the architecture axis: the first
non-UNKNOWN member, in declaration order, whose identifier occurs in any
executable's oracle output. -/
def claimFirstNonUnknownArch (filetypes : List Str) : Architecture :=
  ((architectureMembers.filter (fun m => decide (m ≠ .UNKNOWN))).find?
    (fun m => filetypes.any (fun ft => strContains ft m.identifier))).getD .UNKNOWN

/-- **C4, counterexample.** With oracle outputs `["MIPS", "x"]`, the
identifier of `MIPS` occurs in an executable's output, yet `checkArch`
returns `UNKNOWN` for the architecture axis: the second, non-matching
executable re-binds the loop variable `arch` and discards the earlier
match. -/
theorem c4_counterexample :
    checkArch ["MIPS".toList, "x".toList] = (.UNKNOWN, .UNKNOWN) ∧
    claimFirstNonUnknownArch ["MIPS".toList, "x".toList] = .MIPS ∧
    Architecture.MIPS ≠ Architecture.UNKNOWN :=
  ⟨rfl, rfl, by decide⟩

/-- The architecture value actually computed for one oracle output: the
first member in declaration order whose identifier occurs in that single
output, `UNKNOWN` when none does. -/
def archOfOutput (ft : Str) : Architecture :=
  (architectureMembers.find? (fun m => strContains ft m.identifier)).getD .UNKNOWN

/-- The endianness update for one oracle output: the first member in
declaration order whose identifier occurs in it, otherwise the previous
value is retained. -/
def endianUpdate (cur : Endianess) (ft : Str) : Endianess :=
  (endianessMembers.find? (fun m => strContains ft m.identifier)).getD cur

/-- Specification-side scan for the amended claim C4. -/
def checkArchAmendedSpec : List Str → Architecture → Endianess → Architecture × Endianess
  | [], a, e => (a, e)
  | ft :: rest, _a, e =>
    let a2 := archOfOutput ft
    let e2 := endianUpdate e ft
    if a2 ≠ Architecture.UNKNOWN ∧ e2 ≠ Endianess.UNKNOWN then (a2, e2)
    else checkArchAmendedSpec rest a2 e2

theorem archForLoop_eq (members : List Architecture) (ft : Str) :
    ∀ cur, archForLoop members ft cur =
      (members.find? (fun m => strContains ft m.identifier)).getD
        (members.getLastD cur) := by
  induction members with
  | nil => intro cur; rfl
  | cons m rest ih =>
    intro cur
    by_cases h : strContains ft m.identifier = true
    · have hf : List.find? (fun m => strContains ft m.identifier) (m :: rest) = some m :=
        List.find?_cons_of_pos _ h
      rw [hf]
      simp only [archForLoop, h, if_true, Option.getD_some]
    · have hf : List.find? (fun m => strContains ft m.identifier) (m :: rest) =
          List.find? (fun m => strContains ft m.identifier) rest :=
        List.find?_cons_of_neg _ h
      rw [hf, List.getLastD_cons]
      rw [Bool.not_eq_true] at h
      simp only [archForLoop, h, Bool.false_eq_true, if_false]
      exact ih m

theorem endianForLoop_eq (members : List Endianess) (ft : Str) (cur : Endianess) :
    endianForLoop members ft cur =
      (members.find? (fun m => strContains ft m.identifier)).getD cur := by
  induction members with
  | nil => rfl
  | cons m rest ih =>
    by_cases h : strContains ft m.identifier = true
    · have hf : List.find? (fun m => strContains ft m.identifier) (m :: rest) = some m :=
        List.find?_cons_of_pos _ h
      rw [hf]
      simp only [endianForLoop, h, if_true, Option.getD_some]
    · have hf : List.find? (fun m => strContains ft m.identifier) (m :: rest) =
          List.find? (fun m => strContains ft m.identifier) rest :=
        List.find?_cons_of_neg _ h
      rw [hf]
      rw [Bool.not_eq_true] at h
      simp only [endianForLoop, h, Bool.false_eq_true, if_false]
      exact ih

theorem checkArchLoop_eq (fts : List Str) :
    ∀ a e, checkArchLoop fts a e = checkArchAmendedSpec fts a e := by
  induction fts with
  | nil => intro a e; rfl
  | cons ft rest ih =>
    intro a e
    have hlast : architectureMembers.getLastD a = Architecture.UNKNOWN := rfl
    simp only [checkArchLoop, checkArchAmendedSpec, archForLoop_eq, endianForLoop_eq,
      hlast, archOfOutput, endianUpdate]
    split
    · rfl
    · exact ih _ _

/-- **C4, amended.** In `checkArch`, for each executable in order: the
architecture is recomputed from that executable's oracle output alone, as
the first `Architecture` member in declaration order whose identifier
occurs in it and `UNKNOWN` when none occurs (so a later non-matching
executable discards an earlier match); the endianness is updated to the
first matching `Endianess` member in declaration order and retained
otherwise; the scan stops at the first executable after which both axes
are non-UNKNOWN. -/
theorem c4_theorem (filetypes : List Str) :
    checkArch filetypes = checkArchAmendedSpec filetypes .UNKNOWN .UNKNOWN :=
  checkArchLoop_eq filetypes .UNKNOWN .UNKNOWN

/-! ### Kernel version and init inference (claim C5) -/

/-- Index of the leftmost occurrence of `sep` in `s`, if any. -/
def findSubstrIdx (sep : Str) : Str → Option Nat
  | [] => if sep.isEmpty then some 0 else none
  | c :: rest =>
    if sep.isPrefixOf (c :: rest) then some 0
    else (findSubstrIdx sep rest).map (· + 1)

/-- Python `s.split(sep)[1]` when `sep` occurs in `s`: the segment between
the first occurrence of `sep` and the next non-overlapping occurrence (or
the end of the string).  Returns `[]` when `sep` does not occur (the code
only evaluates it under that guard, where Python would raise). -/
def segmentAfterFirst (sep s : Str) : Str :=
  match findSubstrIdx sep s with
  | some i =>
    let rest := s.drop (i + sep.length)
    match findSubstrIdx sep rest with
    | some j => rest.take j
    | none => rest
  | none => []

/-- Python `s.split(sep)[1].split(" ")[0]`: the segment after the first
`sep`, truncated at its first space. -/
def tokenAfter (sep s : Str) : Str :=
  (segmentAfterFirst sep s).takeWhile (fun c => !(decide (c = ' ')))

/-- The four fields that `Emulator.inferKernelVersion` fills in. -/
structure KernelScan where
  kernelVersion : Str
  kernelVersionString : Str
  inferredKernelInit : List Str
  inferredKernelInitStrings : List Str
deriving DecidableEq, Repr

/-- The empty state set up by `Emulator.init`. -/
def initialKernelScan : KernelScan := ⟨[], [], [], []⟩

def lvStr : Str := "Linux version".toList
def lvSpaceStr : Str := "Linux version ".toList
def initEqStr : Str := "init=".toList

/-- The string loop of `Emulator.inferKernelVersion` (emulator.py lines
212-224), over the printable strings yielded from the kernel blob.  A
string containing `"Linux version"` but not `"Linux version "` makes
`string.split("Linux version ")[1]` raise `IndexError`. -/
def inferKernelVersionLoop : List Str → KernelScan → Except PyErr KernelScan
  | [], st => .ok st
  | s :: rest, st =>
    if strContains s lvStr then
      if strContains s lvSpaceStr then
        let temp := tokenAfter lvSpaceStr s
        let st2 := if temp.isEmpty then st
          else { st with kernelVersion := temp, kernelVersionString := s }
        inferKernelVersionLoop rest st2
      else .error .indexError
    else if strContains s initEqStr then
      let temp := tokenAfter initEqStr s
      let st2 := if temp.isEmpty then st
        else { st with
          inferredKernelInit := st.inferredKernelInit ++ [temp],
          inferredKernelInitStrings := st.inferredKernelInitStrings ++ [s] }
      inferKernelVersionLoop rest st2
    else inferKernelVersionLoop rest st

/-- `Emulator.inferKernelVersion` starting from the freshly initialised
state. -/
def inferKernelVersion (strs : List Str) : Except PyErr KernelScan :=
  inferKernelVersionLoop strs initialKernelScan

/-- The claim's specification of the recorded version: the token after
`"Linux version "` in the last string that contains it. -/
def claimKernelVersion (strs : List Str) : Str :=
  match (strs.filter (fun s => strContains s lvSpaceStr)).getLast? with
  | some s => tokenAfter lvSpaceStr s
  | none => []

/-- The claim's specification of the init candidates: every string
containing `"init="` contributes its token, in order. -/
def claimInferredInits (strs : List Str) : List Str :=
  (strs.filter (fun s => strContains s initEqStr)).map (tokenAfter initEqStr)

def c5CexStrings : List Str :=
  ["Linux version 2.6 a".toList, "Linux version  b init=/x".toList, "init= y".toList]

/-- **C5, counterexample.** On the three kernel strings
`"Linux version 2.6 a"`, `"Linux version  b init=/x"`, `"init= y"` the code
keeps version `"2.6"` from the first string (the last matching string
yields an empty token and is ignored) and collects no init candidate (the
second string is consumed by the `Linux version` branch of the `elif`, the
third yields an empty token), while the claim demands the last string's
token and both init tokens. -/
theorem c5_counterexample :
    inferKernelVersion c5CexStrings =
      .ok ⟨"2.6".toList, "Linux version 2.6 a".toList, [], []⟩ ∧
    claimKernelVersion c5CexStrings = [] ∧
    claimInferredInits c5CexStrings = ["/x".toList, ([] : Str)] ∧
    ("2.6".toList : Str) ≠ [] ∧
    ([] : List Str) ≠ ["/x".toList, ([] : Str)] :=
  ⟨rfl, rfl, rfl, by decide, by decide⟩

/-- The strings whose tokens feed the recorded kernel version: handled by
the version branch with a nonempty token. -/
def versionCandidates (strs : List Str) : List Str :=
  strs.filter (fun s => strContains s lvStr && !(tokenAfter lvSpaceStr s).isEmpty)

/-- The strings whose tokens feed `inferredKernelInit`: not containing
`"Linux version"` (the `elif` skips those), containing `"init="`, with a
nonempty token. -/
def initCandidates (strs : List Str) : List Str :=
  strs.filter (fun s =>
    !(strContains s lvStr) && strContains s initEqStr &&
      !(tokenAfter initEqStr s).isEmpty)

theorem getLast?_cons_elim {α β : Type} (l : List α) (a : α) (d : β) (f : α → β) :
    ((a :: l).getLast?).elim d f = (l.getLast?).elim (f a) f := by
  induction l generalizing a d with
  | nil => rfl
  | cons x xs ih => rw [List.getLast?_cons_cons, ih, ih]

theorem inferKernelVersionLoop_eq (strs : List Str)
    (hclean : ∀ s ∈ strs, strContains s lvStr = true → strContains s lvSpaceStr = true) :
    ∀ st, inferKernelVersionLoop strs st = .ok
      { kernelVersion :=
          ((versionCandidates strs).getLast?).elim st.kernelVersion (tokenAfter lvSpaceStr),
        kernelVersionString :=
          ((versionCandidates strs).getLast?).elim st.kernelVersionString id,
        inferredKernelInit :=
          st.inferredKernelInit ++ (initCandidates strs).map (tokenAfter initEqStr),
        inferredKernelInitStrings :=
          st.inferredKernelInitStrings ++ initCandidates strs } := by
  induction strs with
  | nil => intro st; simp [inferKernelVersionLoop, versionCandidates, initCandidates]
  | cons s rest ih =>
    intro st
    have hcleanRest : ∀ x ∈ rest, strContains x lvStr = true → strContains x lvSpaceStr = true :=
      fun x hx => hclean x (List.mem_cons_of_mem s hx)
    by_cases hlv : strContains s lvStr = true
    · have hlvs : strContains s lvSpaceStr = true := hclean s (List.mem_cons_self s rest) hlv
      by_cases htemp : (tokenAfter lvSpaceStr s).isEmpty = true
      · have hvc : versionCandidates (s :: rest) = versionCandidates rest := by
          simp [versionCandidates, List.filter_cons, hlv, htemp]
        have hic : initCandidates (s :: rest) = initCandidates rest := by
          simp [initCandidates, List.filter_cons, hlv]
        simp only [inferKernelVersionLoop, hlv, hlvs, if_true, htemp, hvc, hic]
        exact ih hcleanRest st
      · have hvc : versionCandidates (s :: rest) = s :: versionCandidates rest := by
          simp [versionCandidates, List.filter_cons, hlv, htemp]
        have hic : initCandidates (s :: rest) = initCandidates rest := by
          simp [initCandidates, List.filter_cons, hlv]
        simp only [inferKernelVersionLoop, hlv, hlvs, if_true, htemp, Bool.false_eq_true,
          if_false, hvc, hic]
        rw [ih hcleanRest]
        simp [getLast?_cons_elim]
    · rw [Bool.not_eq_true] at hlv
      have hvc : versionCandidates (s :: rest) = versionCandidates rest := by
        simp [versionCandidates, List.filter_cons, hlv]
      by_cases hinit : strContains s initEqStr = true
      · by_cases htemp : (tokenAfter initEqStr s).isEmpty = true
        · have hic : initCandidates (s :: rest) = initCandidates rest := by
            simp [initCandidates, List.filter_cons, hlv, hinit, htemp]
          simp only [inferKernelVersionLoop, hlv, Bool.false_eq_true, if_false, hinit,
            if_true, htemp, hvc, hic]
          exact ih hcleanRest st
        · have hic : initCandidates (s :: rest) = s :: initCandidates rest := by
            simp [initCandidates, List.filter_cons, hlv, hinit, htemp]
          simp only [inferKernelVersionLoop, hlv, Bool.false_eq_true, if_false, hinit,
            if_true, htemp, hvc, hic]
          rw [ih hcleanRest]
          simp
      · rw [Bool.not_eq_true] at hinit
        have hic : initCandidates (s :: rest) = initCandidates rest := by
          simp [initCandidates, List.filter_cons, hlv, hinit]
        simp only [inferKernelVersionLoop, hlv, hinit, Bool.false_eq_true, if_false, hvc, hic]
        exact ih hcleanRest st

/-- **C5, amended.** Provided no kernel string contains `"Linux version"`
without the trailing space (which would raise `IndexError`): the recorded
kernel version is the token after the first `"Linux version "` in the
*last* string that is handled by the version branch with a nonempty token;
`inferredKernelInit` accumulates, in order, the nonempty tokens after
`"init="` of exactly those strings that contain `"init="` but do *not*
contain `"Linux version"`. -/
theorem c5_theorem (strs : List Str)
    (hclean : ∀ s ∈ strs, strContains s lvStr = true → strContains s lvSpaceStr = true) :
    inferKernelVersion strs = .ok
      { kernelVersion :=
          ((versionCandidates strs).getLast?).elim [] (tokenAfter lvSpaceStr),
        kernelVersionString := ((versionCandidates strs).getLast?).elim [] id,
        inferredKernelInit := (initCandidates strs).map (tokenAfter initEqStr),
        inferredKernelInitStrings := initCandidates strs } := by
  have h := inferKernelVersionLoop_eq strs hclean initialKernelScan
  simpa [inferKernelVersion, initialKernelScan] using h

def c5WitnessStrings : List Str :=
  ["Linux version 2.6.31 (builder) x".toList, "root=/dev/ram init=/bin/sh".toList]

/-- Witness for `c5_theorem` on a two-string kernel blob. -/
theorem c5_theorem_witness :
    inferKernelVersion c5WitnessStrings = .ok
      { kernelVersion :=
          ((versionCandidates c5WitnessStrings).getLast?).elim [] (tokenAfter lvSpaceStr),
        kernelVersionString := ((versionCandidates c5WitnessStrings).getLast?).elim [] id,
        inferredKernelInit := (initCandidates c5WitnessStrings).map (tokenAfter initEqStr),
        inferredKernelInitStrings := initCandidates c5WitnessStrings } :=
  c5_theorem c5WitnessStrings (by decide)

/-! ### Tarball file records (claim C8) -/

/-- A tarball member as consulted by `util.getFilesInfo`: its name, whether
it is a regular file, whether `tar.extractfile` returns a stream (`None`
makes the member skipped), its raw content bytes, and the ownership/mode
metadata. -/
structure TarMember where
  name : Str
  isfile : Bool
  extractOk : Bool
  content : List Nat
  uid : Nat
  gid : Nat
  mode : Nat

/-- `util.getFilesInfo` (lines 170-181): for every regular-file member with
an extractable stream, record `(member.name[1:], md5, uid, gid, mode)`,
`md5` abstracted as a function of the content bytes. -/
def getFilesInfo (md5 : List Nat → Str) (members : List TarMember) :
    List (Str × Str × Nat × Nat × Nat) :=
  members.filterMap (fun m =>
    if m.isfile && m.extractOk then
      some (m.name.drop 1, md5 m.content, m.uid, m.gid, m.mode)
    else none)

/-- The claim's description of the recorded name: the member name with any
leading `.` stripped. -/
def stripLeadingDot (s : Str) : Str :=
  match s with
  | '.' :: rest => rest
  | _ => s

/-- A constant stand-in hash function for concrete evaluations. -/
def md5Const : List Nat → Str := fun _ => "d41d8cd98f00b204e9800998ecf8427e".toList

/-- **C8, counterexample.** For a regular-file member named `bin/sh`
(no leading `./`), the recorded guest name is `in/sh`: the code drops the
first character unconditionally, which is neither the name with a leading
`.` stripped nor a path beginning with `/`. -/
theorem c8_counterexample :
    getFilesInfo md5Const [⟨"bin/sh".toList, true, true, [], 0, 0, 493⟩] =
      [("in/sh".toList, md5Const [], 0, 0, 493)] ∧
    "in/sh".toList ≠ stripLeadingDot "bin/sh".toList ∧
    startsWith ['/'] "in/sh".toList = false :=
  ⟨rfl, by decide, by decide⟩

/-- **C8, amended.** Every record produced by `getFilesInfo` comes from a
regular-file member with an extractable stream and carries the member name
with its *first character* removed; when the member name starts with `./`
(the usual tarball layout) this equals the name with the leading `.`
stripped and begins with `/`. -/
theorem c8_theorem (md5 : List Nat → Str) (members : List TarMember)
    (entry : Str × Str × Nat × Nat × Nat)
    (hentry : entry ∈ getFilesInfo md5 members) :
    ∃ m ∈ members, m.isfile = true ∧ m.extractOk = true ∧
      entry.1 = m.name.drop 1 ∧
      (startsWith "./".toList m.name = true →
        entry.1 = stripLeadingDot m.name ∧ startsWith ['/'] entry.1 = true) := by
  rw [getFilesInfo, List.mem_filterMap] at hentry
  obtain ⟨m, hm, hsome⟩ := hentry
  by_cases hck : (m.isfile && m.extractOk) = true
  · rw [if_pos hck] at hsome
    obtain ⟨hf, he⟩ := Bool.and_eq_true_iff.mp hck
    refine ⟨m, hm, hf, he, ?_, ?_⟩
    · rw [← Option.some_inj.mp hsome]
    · intro hdot
      obtain ⟨t, ht⟩ : ∃ t, m.name = '.' :: '/' :: t := by
        rw [startsWith, List.isPrefixOf_iff_prefix] at hdot
        obtain ⟨t, ht⟩ := hdot
        exact ⟨t, ht.symm⟩
      rw [← Option.some_inj.mp hsome, ht]
      exact ⟨rfl, startsWith_slash_iff.mpr ⟨t, rfl⟩⟩
  · rw [if_neg hck] at hsome
    exact absurd hsome (Option.some_ne_none entry).symm

/-- Witness for `c8_theorem`: the single member `./bin/busybox`. -/
theorem c8_theorem_witness :
    ∃ m ∈ [(⟨"./bin/busybox".toList, true, true, [7], 0, 0, 493⟩ : TarMember)],
      m.isfile = true ∧ m.extractOk = true ∧
      ("/bin/busybox".toList, md5Const [7], 0, 0, 493).1 = m.name.drop 1 ∧
      (startsWith "./".toList m.name = true →
        ("/bin/busybox".toList, md5Const [7], 0, 0, 493).1 = stripLeadingDot m.name ∧
        startsWith ['/'] ("/bin/busybox".toList, md5Const [7], 0, 0, 493).1 = true) :=
  c8_theorem md5Const [⟨"./bin/busybox".toList, true, true, [7], 0, 0, 493⟩]
    ("/bin/busybox".toList, md5Const [7], 0, 0, 493) (by simp [getFilesInfo])

/-! ### Raw image creation (claim C9) -/

/-- The copy loop of `util.dd` (lines 390-395): each iteration asks the
input stream for one block; an empty read ends the copy early.  The input
stream is abstracted as the bytes returned for one read of a given size
(`/dev/zero` is stateless, returning `n` zero bytes for a read of `n`). -/
def ddLoop (readBlock : Nat → List Nat) (blockSize : Nat) : Nat → List Nat → List Nat
  | 0, acc => acc
  | n+1, acc =>
    let data := readBlock blockSize
    if data.isEmpty then acc else ddLoop readBlock blockSize n (acc ++ data)

/-- `util.dd`: copy `count` blocks of `blockSize` bytes. -/
def dd (readBlock : Nat → List Nat) (count blockSize : Nat) : List Nat :=
  ddLoop readBlock blockSize count []

/-- One read from `/dev/zero`: `n` zero bytes. -/
def devZeroRead (n : Nat) : List Nat := List.replicate n 0

/-- `util.createRawImg` (lines 413-425) up to the partitioning step: reject
a non-positive size with `ValueError` and an existing file with
`FileExistsError`, then zero-fill via
`dd(inputFile="/dev/zero", outputFile=path, count=size // 512, blockSize=512)`.
The returned bytes are the content written to the new file. -/
def createRawImg (fileAlreadyExists : Bool) (size : Nat) : Except PyErr (List Nat) :=
  if size = 0 then .error .valueError
  else if fileAlreadyExists then .error .fileExistsError
  else .ok (dd devZeroRead (size / 512) 512)

/-- **C9, counterexample.** At size 1 (positive, no pre-existing file) the
zero-fill writes `1 // 512 = 0` blocks, an empty file, not 1 zero byte;
in general only `512 * (size // 512)` bytes are written. -/
theorem c9_counterexample :
    createRawImg false 1 = .ok [] ∧ ([] : List Nat) ≠ List.replicate 1 0 :=
  ⟨rfl, by decide⟩

theorem ddLoop_devZero (blockSize : Nat) (hbs : blockSize ≠ 0) :
    ∀ (n : Nat) (acc : List Nat),
      ddLoop devZeroRead blockSize n acc = acc ++ List.replicate (n * blockSize) 0 := by
  intro n
  induction n with
  | zero => intro acc; simp [ddLoop]
  | succ n ih =>
    intro acc
    have hne : (devZeroRead blockSize).isEmpty = false := by
      simp [devZeroRead, List.isEmpty_iff, List.replicate_eq_nil_iff, hbs]
    simp only [ddLoop, hne, Bool.false_eq_true, if_false]
    rw [ih]
    rw [List.append_assoc]
    congr 1
    show List.replicate blockSize (0 : Nat) ++ _ = _
    rw [← List.replicate_add]
    congr 1
    ring

/-- **C9, amended.** For every positive size and a path with no existing
file, `createRawImg` writes `512 * (size // 512)` zero bytes (full
512-byte blocks only): exactly `size` zero bytes iff `size` is a multiple
of 512. -/
theorem c9_theorem (size : Nat) (hpos : 0 < size) :
    createRawImg false size = .ok (List.replicate (512 * (size / 512)) 0) := by
  rw [createRawImg, if_neg (Nat.pos_iff_ne_zero.mp hpos)]
  rw [if_neg (by simp)]
  rw [dd, ddLoop_devZero 512 (by omega) (size / 512) []]
  rw [List.nil_append, Nat.mul_comm]

/-- Witness for `c9_theorem` at size 1024. -/
theorem c9_theorem_witness :
    createRawImg false 1024 = .ok (List.replicate (512 * (1024 / 512)) 0) :=
  c9_theorem 1024 (by decide)

/-! ### Init validation (claims C3, C10) -/

/-- Oracle view of the filesystem as consulted by
`prepareImage.validateInits`: the guest predicates (whose outcomes,
including raised errors, are abstract here — their internal chain-walking
semantics is modelled above), `os.path.exists` plus the per-root results
of the `os.walk` search inside `util.find`, and `os.path.islink` /
`os.readlink` for the symlink-repair branch. -/
structure PrepFS where
  existsInG : Str → Str → Except PyErr Bool
  isDirInG : Str → Str → Except PyErr Bool
  isFileInG : Str → Str → Except PyErr Bool
  osExists : Str → Bool
  walkFind : Str → Str → List Str
  islink : Str → Bool
  readlink : Str → Str

/-- `util.find` (lines 598-609) over a list of root paths: raises
`FileNotFoundError` at the first root that does not exist (missing roots
are never skipped), otherwise accumulates the walk results of every root
in order. -/
def find (fs : PrepFS) : List Str → Str → Except PyErr (List Str)
  | [], _ => .ok []
  | r :: rest, name =>
    if fs.osExists r then
      match find fs rest name with
      | .ok l => .ok (fs.walkFind r name ++ l)
      | .error e => .error e
    else .error .fileNotFoundError

/-- `os.path.basename`: the part after the last slash. -/
def basename (s : Str) : Str :=
  s.foldl (fun acc c => if c = '/' then [] else acc ++ [c]) []

/-- Order-preserving deduplication (`validateInits` lines 83-88). -/
def dedupFirstAux (seen : List Str) : List Str → List Str
  | [] => []
  | x :: rest =>
    if x ∈ seen then dedupFirstAux seen rest
    else x :: dedupFirstAux (x :: seen) rest

def dedupFirst (l : List Str) : List Str := dedupFirstAux [] l

/-- The fallback line `/firmadyne/preInit.sh`. -/
def preInitLine : Str := "/firmadyne/preInit.sh".toList

/-- The fallback search directories of `validateInits` line 104. -/
def searchLocations : List Str :=
  ["/bin".toList, "/sbin".toList, "/usr/bin".toList, "/usr/sbin".toList]

/-- `[guestToHostPath(rootPath, loc) for loc in ...]` (line 104). -/
def translatedLocations (rootPath : Str) : Except PyErr (List Str) :=
  searchLocations.mapM (guestToHostPath rootPath)

/-- Phase 1 of `validateInits` (lines 65-74): start from the suspected
inits, add `/init` when it exists in guest and is not a directory, then
add the recursive find results for `rcS`, `preinit` and `preinitMT`. -/
def collectPossibleInits (fs : PrepFS) (rootPath : Str) (suspected : List Str) :
    Except PyErr (List Str) := do
  let mut possibleInits := suspected
  let e ← fs.existsInG rootPath "/init".toList
  if e then
    let d ← fs.isDirInG rootPath "/init".toList
    if !d then
      let g ← hostToGuestPath rootPath "/init".toList
      possibleInits := possibleInits ++ [g]
  for name in ["rcS".toList, "preinit".toList, "preinitMT".toList] do
    let results ← find fs [rootPath] name
    for r in results do
      let g ← hostToGuestPath rootPath r
      possibleInits := possibleInits ++ [g]
  return possibleInits

/-- The per-candidate loop of `validateInits` (lines 91-133).  The
`os.remove`/`os.symlink` repairs are filesystem side effects that do not
feed the returned list; the `hostToGuestPath` translation of the found
link target is kept because its `ValueError` would propagate. -/
def validateLoop (fs : PrepFS) (rootPath : Str) :
    List Str → List Str → Except PyErr (List Str)
  | [], found => .ok found
  | c :: rest, found => do
    let initHostPath ← guestToHostPath rootPath c
    let d ← fs.isDirInG rootPath c
    if d then
      validateLoop fs rootPath rest found
    else
      let f ← fs.isFileInG rootPath c
      if f then
        validateLoop fs rootPath rest (found ++ [c])
      else
        let locs ← translatedLocations rootPath
        let results ← find fs locs (basename c)
        match results with
        | r :: _ => do
          let _ ← hostToGuestPath rootPath r
          validateLoop fs rootPath rest (found ++ [c])
        | [] =>
          if fs.islink initHostPath then
            let results2 ← find fs locs (basename (fs.readlink initHostPath))
            match results2 with
            | r :: _ => do
              let _ ← hostToGuestPath rootPath r
              validateLoop fs rootPath rest (found ++ [c])
            | [] => validateLoop fs rootPath rest found
          else validateLoop fs rootPath rest found

/-- `prepareImage.validateInits` (lines 46-144).  The result pairs the
returned init list with the lines written to `/firmadyne/init` (the file
content is each line followed by a newline). -/
def validateInits (fs : PrepFS) (rootPath : Str) (suspectedInits : List Str) :
    Except PyErr (List Str × List Str) := do
  let possibleInits ← collectPossibleInits fs rootPath suspectedInits
  if possibleInits.isEmpty then
    return ([preInitLine], [preInitLine])
  let uniqueInits := dedupFirst possibleInits
  let foundInits ← validateLoop fs rootPath uniqueInits []
  return (foundInits ++ [preInitLine], foundInits ++ [preInitLine])

/-- **C3, confirmed.** Whenever `validateInits` writes `/firmadyne/init`,
the emitted line list is nonempty and its last line is exactly
`/firmadyne/preInit.sh` (followed by a newline in the file); if the
candidate collection comes back empty the file is exactly that line, and
otherwise the file is the survivors returned by the validation loop
followed by that line — in particular, when no candidate survives
validation (`foundInits = []`), the file contains only
`/firmadyne/preInit.sh`. -/
theorem c3_theorem (fs : PrepFS) (rootPath : Str) (suspected ret lines : List Str)
    (h : validateInits fs rootPath suspected = .ok (ret, lines)) :
    lines ≠ [] ∧ lines.getLast? = some preInitLine ∧
    (∀ possible, collectPossibleInits fs rootPath suspected = .ok possible →
      (possible.isEmpty = true → lines = [preInitLine]) ∧
      ∀ foundInits, validateLoop fs rootPath (dedupFirst possible) [] = .ok foundInits →
        lines = foundInits ++ [preInitLine] ∧
        (foundInits = [] → lines = [preInitLine])) := by
  rw [validateInits] at h
  simp only [Bind.bind, Except.bind] at h
  cases hcol : collectPossibleInits fs rootPath suspected with
  | error e => rw [hcol] at h; exact absurd h (by simp)
  | ok possible =>
    rw [hcol] at h
    dsimp only at h
    by_cases hemp : possible.isEmpty = true
    · rw [hemp] at h
      simp only [if_true, pure, Except.pure, Except.ok.injEq, Prod.mk.injEq] at h
      obtain ⟨_, hlines⟩ := h
      subst hlines
      have hnil : possible = [] := List.isEmpty_iff.mp hemp
      subst hnil
      refine ⟨by simp, by simp, ?_⟩
      intro possible2 hcol2
      have hpp : possible2 = ([] : List Str) := (Except.ok.inj hcol2).symm
      subst hpp
      refine ⟨fun _ => rfl, ?_⟩
      intro foundInits hloop
      simp only [dedupFirst, dedupFirstAux, validateLoop, Except.ok.injEq] at hloop
      subst hloop
      exact ⟨rfl, fun _ => rfl⟩
    · rw [Bool.not_eq_true] at hemp
      rw [hemp] at h
      simp only [Bool.false_eq_true, if_false] at h
      cases hloop : validateLoop fs rootPath (dedupFirst possible) [] with
      | error e => rw [hloop] at h; exact absurd h (by simp [pure, Except.pure])
      | ok foundInits =>
        rw [hloop] at h
        simp only [pure, Except.pure, Except.ok.injEq, Prod.mk.injEq] at h
        obtain ⟨_, hlines⟩ := h
        subst hlines
        refine ⟨by simp, by simp, ?_⟩
        intro possible2 hcol2
        have hpp : possible2 = possible := (Except.ok.inj hcol2).symm
        rw [hpp]
        refine ⟨fun habs => absurd habs (by simp [hemp]), ?_⟩
        intro foundInits2 hloop2
        rw [hloop] at hloop2
        have hff : foundInits = foundInits2 := Except.ok.inj hloop2
        rw [← hff]
        exact ⟨rfl, fun hfe => by rw [hfe, List.nil_append]⟩

/-- A filesystem oracle on which nothing exists in guest and all walks
are empty: every candidate is dropped by the validation loop. -/
def c3WitFS : PrepFS where
  existsInG := fun _ _ => .ok false
  isDirInG := fun _ _ => .ok false
  isFileInG := fun _ _ => .ok false
  osExists := fun _ => true
  walkFind := fun _ _ => []
  islink := fun _ => false
  readlink := fun _ => []

/-- Witness for `c3_theorem`: the single candidate `/sbin/init` over an
image where it is dropped (no candidate survives), so the emitted file is
exactly the fallback line. -/
theorem c3_theorem_witness :
    ([preInitLine] : List Str) ≠ [] ∧
    ([preInitLine] : List Str).getLast? = some preInitLine ∧
    (∀ possible,
      collectPossibleInits c3WitFS "/r".toList ["/sbin/init".toList] = .ok possible →
      (possible.isEmpty = true → ([preInitLine] : List Str) = [preInitLine]) ∧
      ∀ foundInits,
        validateLoop c3WitFS "/r".toList (dedupFirst possible) [] = .ok foundInits →
        ([preInitLine] : List Str) = foundInits ++ [preInitLine] ∧
        (foundInits = [] → ([preInitLine] : List Str) = [preInitLine])) :=
  c3_theorem c3WitFS "/r".toList ["/sbin/init".toList] [preInitLine] [preInitLine] rfl

/-! ### Missing search directories (claim C10) -/

theorem find_error_of_missing (fs : PrepFS) (name : Str) :
    ∀ locs : List Str, (∃ l ∈ locs, fs.osExists l = false) →
      find fs locs name = .error .fileNotFoundError := by
  intro locs
  induction locs with
  | nil => rintro ⟨l, hl, _⟩; exact absurd hl (List.not_mem_nil l)
  | cons r rest ih =>
    rintro ⟨l, hl, hfalse⟩
    by_cases hr : fs.osExists r = true
    · have hlrest : l ∈ rest := by
        rcases List.mem_cons.mp hl with h | h
        · subst h; rw [hr] at hfalse; exact absurd hfalse (by simp)
        · exact h
      simp only [find, hr, if_true]
      rw [ih ⟨l, hlrest, hfalse⟩]
    · rw [Bool.not_eq_true] at hr
      simp [find, hr]

/-- A candidate the loop passes over without searching: it translates, and
it resolves in guest to a directory or to a real file. -/
def resolvesCleanly (fs : PrepFS) (rootPath c : Str) : Prop :=
  (∃ hp, guestToHostPath rootPath c = .ok hp) ∧
  (fs.isDirInG rootPath c = .ok true ∨
    (fs.isDirInG rootPath c = .ok false ∧ fs.isFileInG rootPath c = .ok true))

/-- A candidate that fails to resolve to a real file, sending the loop
into the `find` over the four search directories. -/
def triggersSearch (fs : PrepFS) (rootPath c : Str) : Prop :=
  (∃ hp, guestToHostPath rootPath c = .ok hp) ∧
  fs.isDirInG rootPath c = .ok false ∧ fs.isFileInG rootPath c = .ok false

theorem validateLoop_error (fs : PrepFS) (rootPath : Str) (locs : List Str)
    (hlocs : translatedLocations rootPath = .ok locs)
    (hmiss : ∃ l ∈ locs, fs.osExists l = false) :
    ∀ (pre : List Str) (c : Str) (post found : List Str),
      (∀ x ∈ pre, resolvesCleanly fs rootPath x) →
      triggersSearch fs rootPath c →
      validateLoop fs rootPath (pre ++ c :: post) found = .error .fileNotFoundError := by
  intro pre
  induction pre with
  | nil =>
    intro c post found _ hc
    obtain ⟨⟨hp, hhp⟩, hdir, hfile⟩ := hc
    rw [List.nil_append, validateLoop]
    simp only [Bind.bind, Except.bind, hhp, hdir, hfile, hlocs,
      find_error_of_missing fs (basename c) locs hmiss, Bool.false_eq_true, if_false]
  | cons x pre ih =>
    intro c post found hpre hc
    obtain ⟨⟨hp, hhp⟩, hres⟩ := hpre x (List.mem_cons_self x pre)
    have hprerest : ∀ y ∈ pre, resolvesCleanly fs rootPath y :=
      fun y hy => hpre y (List.mem_cons_of_mem x hy)
    rw [List.cons_append, validateLoop]
    rcases hres with hdir | ⟨hdir, hfile⟩
    · simp only [Bind.bind, Except.bind, hhp, hdir, if_true]
      exact ih c post found hprerest hc
    · simp only [Bind.bind, Except.bind, hhp, hdir, hfile, Bool.false_eq_true, if_false,
        if_true]
      exact ih c post (found ++ [x]) hprerest hc

/-- **C10, confirmed.** If the deduplicated candidate list reaches a
candidate that fails to resolve to a real file (every earlier candidate
resolving cleanly), and at least one of the four translated search
directories `/bin`, `/sbin`, `/usr/bin`, `/usr/sbin` does not exist on the
host, then `validateInits` raises the `FileNotFoundError` propagated from
`util.find` instead of skipping the missing directory. -/
theorem c10_theorem (fs : PrepFS) (rootPath : Str)
    (suspected possibleList pre post : List Str) (c : Str) (locs : List Str)
    (h1 : collectPossibleInits fs rootPath suspected = .ok possibleList)
    (h2 : possibleList.isEmpty = false)
    (h3 : dedupFirst possibleList = pre ++ c :: post)
    (h4 : ∀ x ∈ pre, resolvesCleanly fs rootPath x)
    (h5 : triggersSearch fs rootPath c)
    (h6 : translatedLocations rootPath = .ok locs)
    (h7 : ∃ l ∈ locs, fs.osExists l = false) :
    validateInits fs rootPath suspected = .error .fileNotFoundError := by
  rw [validateInits]
  simp only [Bind.bind, Except.bind, h1, h2, Bool.false_eq_true, if_false, h3]
  rw [validateLoop_error fs rootPath locs h6 h7 pre c post [] h4 h5]
  rfl

/-- An image whose mounted root `/r` exists but contains none of the four
search directories. -/
def c10WitFS : PrepFS where
  existsInG := fun _ _ => .ok false
  isDirInG := fun _ _ => .ok false
  isFileInG := fun _ _ => .ok false
  osExists := fun p => decide (p = "/r".toList)
  walkFind := fun _ _ => []
  islink := fun _ => false
  readlink := fun _ => []

/-- Witness for `c10_theorem`: the single candidate `/sbin/init` over a
root with no `/bin` directory. -/
theorem c10_theorem_witness :
    validateInits c10WitFS "/r".toList ["/sbin/init".toList] =
      .error .fileNotFoundError :=
  c10_theorem c10WitFS "/r".toList ["/sbin/init".toList] ["/sbin/init".toList]
    [] [] "/sbin/init".toList
    ["/r/bin".toList, "/r/sbin".toList, "/r/usr/bin".toList, "/r/usr/sbin".toList]
    rfl rfl rfl (fun x hx => absurd hx (List.not_mem_nil x))
    ⟨⟨"/r/sbin/init".toList, rfl⟩, rfl, rfl⟩ rfl
    ⟨"/r/bin".toList, by decide, rfl⟩

/-! ### Referenced directories (claim C6) -/

/-- The alternation `(/var|/etc|/tmp)` of the scan pattern, in order. -/
def refDirPrefixes : List Str := ["/var".toList, "/etc".toList, "/tmp".toList]

/-- Index of the last slash in `s`, if any. -/
def lastSlashIdx : Str → Option Nat
  | [] => none
  | c :: rest =>
    match lastSlashIdx rest with
    | some k => some (k + 1)
    | none => if c = '/' then some 0 else none

/-- Python `re.match(r'^(/var|/etc|/tmp)(.+)/([^/]+)$', path)`, returning
`group(1) + group(2)` on success.  The alternation tries the (mutually
exclusive) prefixes in order; the greedy `(.+)` ends at the *last* slash
of the remainder, which must leave at least one character before it and at
least one slash-free character after it (no earlier slash can match, since
its tail would contain the last slash). -/
def matchRefDir (s : Str) : Option Str :=
  match refDirPrefixes.find? (fun p => p.isPrefixOf s) with
  | none => none
  | some p =>
    let rest := s.drop p.length
    match lastSlashIdx rest with
    | none => none
    | some k =>
      if 1 ≤ k ∧ k + 1 < rest.length then some (p ++ rest.take k) else none

/-- The filter of `createReferencedDirectories` line 265: a candidate is
kept unless it contains `%s`, `%d`, `%c` or `/tmp/services`. -/
def refDirAllowed (d : Str) : Bool :=
  !(strContains d "%s".toList) && !(strContains d "%d".toList) &&
    !(strContains d "%c".toList) && !(strContains d "/tmp/services".toList)

/-- One walked file under a search location: whether
`os.access(filePath, os.X_OK)` holds, and its printable strings. -/
structure BinFile where
  executable : Bool
  strs : List Str

/-- One executable location: `none` when the translated location does not
exist on the host (the scan logs a warning and skips it), otherwise the
walked files in order. -/
abbrev LocationData := Option (List BinFile)

/-- `if dirPath not in createdDirs: createdDirs.add(dirPath)` — the model
keeps first-insertion order; the Python `set` iterates in an unspecified
order with the same membership, and the claim is per-line. -/
def insertNew (acc : List Str) (d : Str) : List Str :=
  if d ∈ acc then acc else acc ++ [d]

/-- The inner loop over the printable strings of one binary
(lines 260-271). -/
def scanStrings (acc : List Str) : List Str → List Str
  | [] => acc
  | s :: rest =>
    match matchRefDir s with
    | some d => scanStrings (if refDirAllowed d then insertNew acc d else acc) rest
    | none => scanStrings acc rest

/-- The loop over the walked files of one location (lines 251-259):
non-executable files are skipped. -/
def scanFiles (acc : List Str) : List BinFile → List Str
  | [] => acc
  | f :: rest => scanFiles (if f.executable then scanStrings acc f.strs else acc) rest

/-- The outer loop over the four executable locations (lines 246-271). -/
def scanLocations (acc : List Str) : List LocationData → List Str
  | [] => acc
  | none :: rest => scanLocations acc rest
  | some files :: rest => scanLocations (scanFiles acc files) rest

/-- `prepareImage.createReferencedDirectories` (lines 233-275): the lines
emitted to `/firmadyne/dir_log`.  The guard mirrors
`guestToHostPath(rootPath, location)`: with the constant locations all
starting with `/`, it raises exactly when `rootPath` does not; the
host-side `makedirs`/`readGuestLink` effects do not feed the emitted
list (an exception they raise aborts before the file is written). -/
def createReferencedDirectories (rootPath : Str) (locations : List LocationData) :
    Except PyErr (List Str) :=
  if !(startsWith ['/'] rootPath) then .error .valueError
  else .ok (scanLocations [] locations)

/-- The claim's per-line property for `/firmadyne/dir_log`. -/
def refDirLineOKb (d : Str) : Bool :=
  (startsWith "/var".toList d || startsWith "/etc".toList d ||
      startsWith "/tmp".toList d) &&
    !(strContains d "%s".toList) && !(strContains d "%d".toList) &&
    !(strContains d "%c".toList) && decide (d ≠ "/tmp/services".toList)

theorem strContains_self (s : Str) : strContains s s = true := by
  cases s with
  | nil => rfl
  | cons c r =>
    have h : (c :: r).isPrefixOf (c :: r) = true := by
      simp [List.isPrefixOf_iff_prefix]
    simp [strContains, h]

theorem startsWith_append (p t : Str) : startsWith p (p ++ t) = true := by
  simp [startsWith, List.isPrefixOf_iff_prefix]

theorem matchRefDir_lineOK {s d : Str} (hm : matchRefDir s = some d)
    (hallow : refDirAllowed d = true) : refDirLineOKb d = true := by
  have hpre : ∃ p ∈ refDirPrefixes, ∃ t, d = p ++ t := by
    rw [matchRefDir] at hm
    cases hf : refDirPrefixes.find? (fun p => p.isPrefixOf s) with
    | none => rw [hf] at hm; exact absurd hm (by simp)
    | some p =>
      rw [hf] at hm
      dsimp only at hm
      refine ⟨p, List.mem_of_find?_eq_some hf, ?_⟩
      cases hk : lastSlashIdx (s.drop p.length) with
      | none => rw [hk] at hm; exact absurd hm (by simp)
      | some k =>
        rw [hk] at hm
        dsimp only at hm
        by_cases hcond : 1 ≤ k ∧ k + 1 < (s.drop p.length).length
        · rw [if_pos hcond] at hm
          exact ⟨(s.drop p.length).take k, (Option.some_inj.mp hm).symm⟩
        · rw [if_neg hcond] at hm
          exact absurd hm (by simp)
  simp only [refDirAllowed, Bool.and_eq_true, Bool.not_eq_eq_eq_not, Bool.not_true] at hallow
  obtain ⟨⟨⟨hs, hd0⟩, hc0⟩, hts⟩ := hallow
  simp only [refDirLineOKb, Bool.and_eq_true, Bool.not_eq_eq_eq_not, Bool.not_true,
    Bool.or_eq_true, decide_eq_true_eq]
  refine ⟨⟨⟨⟨?_, hs⟩, hd0⟩, hc0⟩, ?_⟩
  · obtain ⟨p, hp, t, ht⟩ := hpre
    subst ht
    have : p = "/var".toList ∨ p = "/etc".toList ∨ p = "/tmp".toList := by
      simpa [refDirPrefixes] using hp
    rcases this with h | h | h <;> subst h
    · exact Or.inl (Or.inl (startsWith_append _ _))
    · exact Or.inl (Or.inr (startsWith_append _ _))
    · exact Or.inr (startsWith_append _ _)
  · intro heq
    subst heq
    rw [strContains_self] at hts
    exact Bool.noConfusion hts

theorem scanStrings_inv (l : List Str) :
    ∀ acc, (∀ d ∈ acc, refDirLineOKb d = true) →
      ∀ d ∈ scanStrings acc l, refDirLineOKb d = true := by
  induction l with
  | nil => intro acc hacc; simpa [scanStrings] using hacc
  | cons s rest ih =>
    intro acc hacc
    simp only [scanStrings]
    cases hm : matchRefDir s with
    | none => exact ih acc hacc
    | some d0 =>
      dsimp only
      by_cases hallow : refDirAllowed d0 = true
      · rw [if_pos hallow]
        refine ih _ ?_
        intro d hd
        rw [insertNew] at hd
        by_cases hmem : d0 ∈ acc
        · rw [if_pos hmem] at hd; exact hacc d hd
        · rw [if_neg hmem] at hd
          rcases List.mem_append.mp hd with h | h
          · exact hacc d h
          · rw [List.mem_singleton.mp h]
            exact matchRefDir_lineOK hm hallow
      · rw [if_neg hallow]
        exact ih acc hacc

theorem scanFiles_inv (files : List BinFile) :
    ∀ acc, (∀ d ∈ acc, refDirLineOKb d = true) →
      ∀ d ∈ scanFiles acc files, refDirLineOKb d = true := by
  induction files with
  | nil => intro acc hacc; simpa [scanFiles] using hacc
  | cons f rest ih =>
    intro acc hacc
    simp only [scanFiles]
    by_cases hx : f.executable = true
    · rw [if_pos hx]
      exact ih _ (scanStrings_inv f.strs acc hacc)
    · rw [if_neg hx]
      exact ih acc hacc

theorem scanLocations_inv (locations : List LocationData) :
    ∀ acc, (∀ d ∈ acc, refDirLineOKb d = true) →
      ∀ d ∈ scanLocations acc locations, refDirLineOKb d = true := by
  induction locations with
  | nil => intro acc hacc; simpa [scanLocations] using hacc
  | cons ld rest ih =>
    intro acc hacc
    cases ld with
    | none => simpa [scanLocations] using ih acc hacc
    | some files =>
      simp only [scanLocations]
      exact ih _ (scanFiles_inv files acc hacc)

/-- **C6, confirmed.** Every line emitted to `/firmadyne/dir_log` begins
with `/var`, `/etc` or `/tmp`, contains none of `%s`, `%d`, `%c`, and is
not `/tmp/services`. -/
theorem c6_theorem (rootPath : Str) (locations : List LocationData) (lines : List Str)
    (h : createReferencedDirectories rootPath locations = .ok lines) :
    lines.all refDirLineOKb = true := by
  rw [createReferencedDirectories] at h
  by_cases hr : startsWith ['/'] rootPath = true
  · rw [hr] at h
    simp only [Bool.not_true, Bool.false_eq_true, if_false, Except.ok.injEq] at h
    subst h
    rw [List.all_eq_true]
    exact scanLocations_inv locations [] (fun d hd => absurd hd (List.not_mem_nil d))
  · rw [Bool.not_eq_true] at hr
    rw [hr] at h
    exact absurd h (by simp)

/-- The scanned binaries for the `c6_theorem` witness: one executable
under the first location referencing `/tmp/a/b` and `/etc/%s/x`; the other
locations are missing. -/
def c6WitLocations : List LocationData :=
  [some [⟨true, ["/tmp/a/b".toList, "/etc/%s/x".toList]⟩], none, none, none]

/-- Witness for `c6_theorem`: the emitted log is `["/tmp/a"]` (the `%s`
candidate is rejected), and every line satisfies the property. -/
theorem c6_theorem_witness : (["/tmp/a".toList] : List Str).all refDirLineOKb = true :=
  c6_theorem "/r".toList c6WitLocations ["/tmp/a".toList] rfl

end FEMU
